import Mathlib

/-!
Verification of the bosh-init installation package-compilation subsystem and
director deployment client against the repository's specification.

The core compiler pipeline (Dependency Compiler, Package Compiler,
Compiled-Package Repository) is not among the shipped source files — only the
installer factory that wires it together is — so those components are modelled
from the spec (sections 4.1–4.4), as marked on each definition.  The installer
factory (`installation` package) and the director deployment client
(`director/deployment.go`) are embedded directly from the source.
-/

namespace BoshInit

/-- Spec §3: a Package has a name, a content fingerprint, and a list of direct
dependency Packages (referenced here by name, as the dependency graph is
resolved over the set of required packages). -/
structure Package where
  name : String
  fingerprint : String
  deps : List String
  deriving Repr, DecidableEq

/-- Spec §3: a Job names the Packages it requires. -/
structure Job where
  name : String
  packageNames : List String
  deriving Repr, DecidableEq

/-- Spec §3: CompiledPackageRecord = {BlobID, BlobSHA1, DependencyKey}. -/
structure CompiledPackageRecord where
  blobID : String
  blobSHA1 : String
  dependencyKey : String
  deriving Repr, DecidableEq

/-- Spec §4.3/§4.4: the Compiled-Package Repository, backed by the Persistent
Index, maps the key (Package fingerprint, DependencyKey) to the record of the
last successful compilation.  Entries are kept as an association list; `Save`
prepends and `Find` takes the first match. -/
abbrev Cache := List ((String × String) × CompiledPackageRecord)

/-- Find in the Compiled-Package Repository (first entry whose key matches). -/
def cacheLookup (key : String × String) : Cache → Option CompiledPackageRecord
  | [] => none
  | e :: rest => if e.1 = key then some e.2 else cacheLookup key rest

/-- Spec §7 error taxonomy for the compiler run: CycleError (naming the
offending packages) and CompileError (naming the failed package). -/
inductive CompilerError where
  | cycle (packageNames : List String)
  | compileFailed (packageName : String)
  deriving Repr, DecidableEq

/-- Observable side effects of a run: which package fingerprints had the
packaging procedure executed, and which blobs were extracted. -/
structure RunLog where
  procRuns : List String
  extractions : List String
  deriving Repr, DecidableEq

/-- Concatenation of run logs. -/
def RunLog.append (a b : RunLog) : RunLog :=
  ⟨a.procRuns ++ b.procRuns, a.extractions ++ b.extractions⟩

/-- Modelled from the spec: the external packaging procedure (§6) for a given
package fingerprint either succeeds, yielding the stored result blob's ID and
SHA1, or fails (non-zero exit).  The procedure itself is an external
collaborator, so it is an oracle parameter of the model. -/
structure CompileEnv where
  procOutcome : String → Option (String × String)

/-- Modelled from the spec (§4.2 step 1 and §3): DependencyKey is a
deterministic digest of the package's direct dependencies as actually
compiled; modelled as the deterministic serialization of the dependency
records' blob SHA1s. -/
def dependencyKey (depRecords : List CompiledPackageRecord) : String :=
  String.intercalate "," (depRecords.map (fun r => r.blobSHA1))

/-- Modelled from the spec (§4.2, Package Compiler `Compile`), which is not
among the shipped source files: look up (pkg.Fingerprint, DependencyKey) in the
Compiled-Package Repository; on hit return the cached record with no
extraction and no process execution; on miss extract the source and dependency
blobs, run the packaging procedure, and on success store a new record (on
failure report a CompileError naming the package and write no cache entry). -/
def compilePkg (env : CompileEnv) (cache : Cache) (pkg : Package)
    (depRecords : List CompiledPackageRecord) :
    Except CompilerError CompiledPackageRecord × Cache × RunLog :=
  let key := (pkg.fingerprint, dependencyKey depRecords)
  match cacheLookup key cache with
  | some record => (.ok record, cache, ⟨[], []⟩)
  | none =>
    match env.procOutcome pkg.fingerprint with
    | some out =>
      let record : CompiledPackageRecord := ⟨out.1, out.2, key.2⟩
      (.ok record, (key, record) :: cache,
        ⟨[pkg.fingerprint], pkg.name :: depRecords.map (fun r => r.blobID)⟩)
    | none =>
      (.error (.compileFailed pkg.name), cache,
        ⟨[pkg.fingerprint], pkg.name :: depRecords.map (fun r => r.blobID)⟩)

/-- A package is ready to compile once every direct dependency is already in
the compiled list. -/
def readyB (done : List Package) (p : Package) : Bool :=
  p.deps.all (fun d => done.any (fun q => q.name == d))

/-- Modelled from the spec (§4.1): produce a topological order over the
required packages by repeatedly taking a package all of whose dependencies
have already been placed; if none exists while packages remain, the dependency
graph is not a DAG and the names of the remaining (offending) packages are
reported.  The fuel argument (`remaining.length` at the top call) only bounds
the recursion. -/
def topoSortAux : Nat → List Package → List Package →
    Except (List String) (List Package)
  | _, [], done => .ok done
  | 0, p :: rest, _ => .error ((p :: rest).map Package.name)
  | fuel + 1, p :: rest, done =>
    match (p :: rest).find? (readyB done) with
    | some q => topoSortAux fuel ((p :: rest).erase q) (done ++ [q])
    | none => .error ((p :: rest).map Package.name)

/-- The Dependency Compiler's compile order over the required packages. -/
def topoSort (pkgs : List Package) : Except (List String) (List Package) :=
  topoSortAux pkgs.length pkgs []

/-- Resolve an already-compiled dependency record by package name. -/
def resultsLookup (name : String) :
    List (String × CompiledPackageRecord) → Option CompiledPackageRecord
  | [] => none
  | e :: rest => if e.1 = name then some e.2 else resultsLookup name rest

/-- Modelled from the spec (§4.1 Execution/Failure): compile the packages one
at a time in topological order, threading the shared cache; any single package
compile failure aborts the whole run immediately (fail-fast). -/
def compileInOrder (env : CompileEnv) :
    List Package → Cache → List (String × CompiledPackageRecord) → RunLog →
    Except CompilerError (List (String × CompiledPackageRecord)) × Cache × RunLog
  | [], cache, results, log => (.ok results, cache, log)
  | p :: rest, cache, results, log =>
    let depRecs := p.deps.filterMap (fun d => resultsLookup d results)
    match compilePkg env cache p depRecs with
    | (.ok r, cache1, l) =>
      compileInOrder env rest cache1 (results ++ [(p.name, r)]) (log.append l)
    | (.error e, cache1, l) => (.error e, cache1, log.append l)

/-- Modelled from the spec (§4.1), which is not among the shipped source
files: the Dependency Compiler run over a required package set — order the
graph (reporting a CycleError before any compile attempt when it is not a
DAG), then drive the Package Compiler sequentially. -/
def dependencyCompilerRun (env : CompileEnv) (pkgs : List Package)
    (cache : Cache) :
    Except CompilerError (List (String × CompiledPackageRecord)) × Cache × RunLog :=
  match topoSort pkgs with
  | .error names => (.error (.cycle names), cache, ⟨[], []⟩)
  | .ok order => compileInOrder env order cache [] ⟨[], []⟩

/-- Look up a required package by name in the release's package set. -/
def lookupPkg (pkgs : List Package) (name : String) : Option Package :=
  pkgs.find? (fun p => p.name == name)

/-- Add a package to the collected required set unless one with its
fingerprint was already seen (the §4.1 seen-set). -/
def addUnique (acc : List Package) (p : Package) : List Package :=
  if acc.any (fun q => q.fingerprint == p.fingerprint) then acc else acc ++ [p]

/-- One round of transitive-closure expansion: add every direct dependency of
every collected package. -/
def closeStep (pkgs : List Package) (acc : List Package) : List Package :=
  acc.foldl (fun a p => (p.deps.filterMap (lookupPkg pkgs)).foldl addUnique a) acc

/-- Iterate a function n times. -/
def applyN {α : Type} (f : α → α) : Nat → α → α
  | 0, a => a
  | n + 1, a => applyN f n (f a)

/-- Modelled from the spec (§4.1): the full set of required Packages for a set
of Jobs — the union of the Jobs' declared requirements, closed under direct
dependencies (iterating enough rounds to reach the fixpoint), deduplicated by
fingerprint via the seen-set. -/
def requiredPackages (pkgs : List Package) (jobs : List Job) : List Package :=
  let roots := ((jobs.map Job.packageNames).flatten.filterMap (lookupPkg pkgs)).foldl addUnique []
  applyN (closeStep pkgs) pkgs.length roots

/-- Modelled from the spec (§4.1): the Dependency Compiler entry point for a
set of Jobs — resolve the required package set, then run. -/
def dependencyCompilerRunForJobs (env : CompileEnv) (pkgs : List Package)
    (jobs : List Job) (cache : Cache) :
    Except CompilerError (List (String × CompiledPackageRecord)) × Cache × RunLog :=
  dependencyCompilerRun env (requiredPackages pkgs jobs) cache

/-- The direct dependency names reachable from a package name. -/
def depNames (pkgs : List Package) (n : String) : List String :=
  match pkgs.find? (fun p => p.name == n) with
  | some p => p.deps
  | none => []

/-- Bounded reachability along dependency edges (whether `b` is reachable from
`a` in at most `fuel` steps, at least one). -/
def reachableWithin (pkgs : List Package) : Nat → String → String → Bool
  | 0, _, _ => false
  | fuel + 1, a, b =>
    (depNames pkgs a).any (fun c => c == b || reachableWithin pkgs fuel c b)

/-- A required package set is acyclic when no package can reach itself along
dependency edges (paths longer than the package count necessarily repeat a
node, so `pkgs.length` fuel suffices). -/
abbrev Acyclic (pkgs : List Package) : Prop :=
  ∀ p ∈ pkgs, reachableWithin pkgs pkgs.length p.name p.name = false

/-- The direct dependency relation on package names induced by a package set. -/
def DirectDep (pkgs : List Package) (a b : String) : Prop :=
  ∃ p ∈ pkgs, p.name = a ∧ b ∈ p.deps

/-- Transitive dependency: the transitive closure of `DirectDep`. -/
def TransDep (pkgs : List Package) : String → String → Prop :=
  Relation.TransGen (DirectDep pkgs)

/-- A compile order respects direct dependencies: each direct dependency of
the package at index `i` occurs at a strictly earlier index. -/
def RespectsDirect (order : List Package) : Prop :=
  ∀ (i : Nat) (hi : i < order.length), ∀ d ∈ (order[i]).deps,
    ∃ j, j < i ∧ ∃ (hj : j < order.length), (order[j]).name = d

/-! ## Installer factory (src/unnamed/part_000, package `installation`) -/

/-- The `Target` values the factory context reads (src/unnamed/part_000). -/
structure Target where
  blobstorePath : String
  compiledPackagedIndexPath : String
  packagesPath : String
  deriving Repr, DecidableEq

/-- The shape of a blobstore as wired by the factory: a local blobstore over a
path, possibly wrapped in the SHA1-verifying decorator
(`boshblob.NewSHA1VerifiableBlobstore`). -/
inductive BlobstoreShape where
  | localStore (blobstorePath : String)
  | sha1Verified (inner : BlobstoreShape)
  deriving Repr, DecidableEq

/-- `installerFactoryContext.Blobstore` (src/unnamed/part_000 lines 154-164),
construction part: a local blobstore on the target's blobstore path wrapped in
`NewSHA1VerifiableBlobstore`. -/
def contextBlobstoreShape (t : Target) : BlobstoreShape :=
  .sha1Verified (.localStore t.blobstorePath)

/-- Modelled from the spec: the `Get` behavior of the bosh-utils blobstores
(external to the shipped sources).  The local blobstore returns the stored
bytes for a blob ID without checking the digest; the SHA1-verifying decorator
(spec §3 Blob, §4.5) re-computes the digest of the fetched content and fails
the read with a checksum-mismatch error when it does not match the expected
value.  `store` maps blob IDs to contents and `digestOf` is the SHA1 oracle. -/
def BlobstoreShape.get (store : String → Option String)
    (digestOf : String → String) :
    BlobstoreShape → String → String → Except String String
  | .localStore _, blobID, _ =>
    match store blobID with
    | some content => .ok content
    | none => .error ("Blob not found: " ++ blobID)
  | .sha1Verified inner, blobID, expectedSHA1 =>
    match BlobstoreShape.get store digestOf inner blobID expectedSHA1 with
    | .error e => .error e
    | .ok content =>
      if digestOf content == expectedSHA1 then .ok content
      else .error ("Checksum mismatch for blob " ++ blobID)

/-- The memoizing `installerFactoryContext` (src/unnamed/part_000 lines
82-96).  Constructed collaborator objects are modelled by allocation IDs so
that "identical instance" is expressible; `createdFileIndexPaths` records each
`biindex.NewFileIndex` construction in order. -/
structure FactoryContext where
  target : Target
  nextID : Nat
  createdFileIndexPaths : List String
  jobDependencyCompiler : Option Nat
  packageCompiler : Option Nat
  blobstore : Option Nat
  blobExtractor : Option Nat
  compiledPackageRepo : Option Nat
  deriving Repr, DecidableEq

/-- Allocate a fresh object identity. -/
def allocate (s : FactoryContext) : Nat × FactoryContext :=
  (s.nextID, { s with nextID := s.nextID + 1 })

/-- `installerFactoryContext.Blobstore` (lines 154-164): return the memoized
blobstore, or construct it once and memoize. -/
def getBlobstore (s : FactoryContext) : Nat × FactoryContext :=
  match s.blobstore with
  | some id => (id, s)
  | none =>
    let a := allocate s
    (a.1, { a.2 with blobstore := some a.1 })

/-- `biindex.NewFileIndex` as called by the factory: a new instance bound to a
path, recorded in creation order. -/
def newFileIndex (path : String) (s : FactoryContext) : Nat × FactoryContext :=
  let a := allocate s
  (a.1, { a.2 with createdFileIndexPaths := a.2.createdFileIndexPaths ++ [path] })

/-- `installerFactoryContext.CompiledPackageRepo` (lines 176-185): return the
memoized repo, or build a FileIndex on the compiled-package index path and a
repo over it, memoizing the repo. -/
def getCompiledPackageRepo (s : FactoryContext) : Nat × FactoryContext :=
  match s.compiledPackageRepo with
  | some id => (id, s)
  | none =>
    let idx := newFileIndex s.target.compiledPackagedIndexPath s
    let a := allocate idx.2
    (a.1, { a.2 with compiledPackageRepo := some a.1 })

/-- `installerFactoryContext.BlobExtractor` (lines 166-174): return the
memoized extractor, or construct one over `Blobstore()` and memoize. -/
def getBlobExtractor (s : FactoryContext) : Nat × FactoryContext :=
  match s.blobExtractor with
  | some id => (id, s)
  | none =>
    let bs := getBlobstore s
    let a := allocate bs.2
    (a.1, { a.2 with blobExtractor := some a.1 })

/-- `installerFactoryContext.InstallationStatePackageCompiler` (lines
135-152): return the memoized package compiler, or construct one over
`Blobstore()`, `CompiledPackageRepo()` and `BlobExtractor()` and memoize. -/
def getInstallationStatePackageCompiler (s : FactoryContext) : Nat × FactoryContext :=
  match s.packageCompiler with
  | some id => (id, s)
  | none =>
    let bs := getBlobstore s
    let repo := getCompiledPackageRepo bs.2
    let ext := getBlobExtractor repo.2
    let a := allocate ext.2
    (a.1, { a.2 with packageCompiler := some a.1 })

/-- `installerFactoryContext.JobDependencyCompiler` (lines 122-133): return
the memoized dependency compiler, or construct one over
`InstallationStatePackageCompiler()` and memoize. -/
def getJobDependencyCompiler (s : FactoryContext) : Nat × FactoryContext :=
  match s.jobDependencyCompiler with
  | some id => (id, s)
  | none =>
    let pc := getInstallationStatePackageCompiler s
    let a := allocate pc.2
    (a.1, { a.2 with jobDependencyCompiler := some a.1 })

/-- A fresh factory context, as built at the start of
`installerFactory.NewInstaller` (lines 60-69). -/
def initialContext (t : Target) : FactoryContext :=
  ⟨t, 0, [], none, none, none, none, none⟩

/-- `installerFactory.NewInstaller` (lines 60-80): the sequence of getter
calls the installer construction performs on a fresh context —
`JobRenderer()` uses `Blobstore()`, `PackageCompiler()` uses
`JobDependencyCompiler()`, then `BlobExtractor()` is taken directly. -/
def newInstallerContext (t : Target) : FactoryContext :=
  let s1 := (getBlobstore (initialContext t)).2
  let s2 := (getJobDependencyCompiler s1).2
  (getBlobExtractor s2).2

/-! ## Director deployment client (src/director/deployment.go) -/

/-- The fields of `DeploymentResp` that `DeploymentImpl` consults. -/
structure DeploymentResp where
  name : String
  deriving Repr, DecidableEq

/-- A task response; `FetchLogs` reads its `Result` field. -/
structure TaskResp where
  result : String
  deriving Repr, DecidableEq

/-- `LogsResult` (deployment.go lines 38-41). -/
structure LogsResult where
  blobstoreID : String
  sha1 : String
  deriving Repr, DecidableEq

/-- `InstanceSlug`: a job name plus index-or-ID. -/
structure InstanceSlug where
  name : String
  indexOrID : String
  deriving Repr, DecidableEq

/-- The collaborators `DeploymentImpl.Delete` calls on the client, as oracles:
`DeleteDeployment` returns `none` on success or `some err`, and `Deployments`
either fails or returns the current deployment list. -/
structure DeleteEnv where
  deleteDeployment : String → Bool → Option String
  deployments : Except String (List DeploymentResp)

/-- `DeploymentImpl.Delete` (deployment.go lines 165-181): attempt the delete;
on error list the deployments, and swallow the error only when the listing
succeeds and no longer contains this deployment's name. -/
def DeploymentImpl.Delete (env : DeleteEnv) (name : String) (force : Bool) :
    Option String :=
  match env.deleteDeployment name force with
  | none => none
  | some err =>
    match env.deployments with
    | .error _ => some err
    | .ok resps => if resps.any (fun r => r.name == name) then some err else none

/-- The collaborators `Client.FetchLogs` calls, as oracles: the task client's
`GetResult` on a path (returning a task ID, a body, and an optional error) and
`Task` lookup (returning a task response and an optional error).  The path is
passed as its printed segments plus query pairs; URL encoding is an external
library detail. -/
structure FetchLogsEnv where
  getResult : List String → List (String × String) → Nat × String × Option String
  task : Nat → TaskResp × Option String

/-- `Client.FetchLogs` (deployment.go lines 198-237): Go-style multiple
return (blobstoreID, sha1, error).  After validating the three non-empty
arguments it requests the logs task and returns `(taskResp.Result, "", nil)`
on success. -/
def Client.FetchLogs (env : FetchLogsEnv)
    (deploymentName job indexOrID : String) (filters : List String)
    (agent : Bool) : String × String × Option String :=
  if deploymentName.isEmpty then ("", "", some "Expected non-empty deployment name")
  else if job.isEmpty then ("", "", some "Expected non-empty job name")
  else if indexOrID.isEmpty then ("", "", some "Expected non-empty index or ID")
  else
    let query :=
      (if filters.isEmpty then [] else [("filters", String.intercalate "," filters)]) ++
        [("type", if agent then "agent" else "job")]
    let seg := ["deployments", deploymentName, "jobs", job, indexOrID, "logs"]
    match env.getResult seg query with
    | (_, _, some e) => ("", "", some ("Fetching logs: " ++ e))
    | (taskID, _, none) =>
      match env.task taskID with
      | (_, some e) => ("", "", some e)
      | (taskResp, none) => (taskResp.result, "", none)

/-- `DeploymentImpl.FetchLogs` (deployment.go lines 110-117): wrap the client
result into a `LogsResult` (the zero value together with the error when the
client call failed). -/
def DeploymentImpl.FetchLogs (env : FetchLogsEnv) (deploymentName : String)
    (slug : InstanceSlug) (filters : List String) (agent : Bool) :
    LogsResult × Option String :=
  match Client.FetchLogs env deploymentName slug.name slug.indexOrID filters agent with
  | (_, _, some e) => (⟨"", ""⟩, some e)
  | (blobID, sha1, none) => (⟨blobID, sha1⟩, none)

/-- The HTTP PUT `Client.EnableResurrection` issues, with its JSON body kept
structured (`json.Marshal` of a `map[string]bool` cannot fail). -/
structure ResurrectionRequest where
  pathSegments : List String
  body : List (String × Bool)
  contentType : String
  deriving Repr, DecidableEq

/-- The client request collaborator for `EnableResurrection`: `RawPut`
returning an optional error. -/
structure ResurrectionEnv where
  rawPut : ResurrectionRequest → Option String

/-- `Client.EnableResurrection` (deployment.go lines 239-273): validate the
three non-empty arguments (failing without issuing a request), then PUT
`{"resurrection_paused": !enabled}` as JSON.  Returns the request issued (if
any) together with the Go error result. -/
def Client.EnableResurrection (env : ResurrectionEnv)
    (deploymentName job indexOrID : String) (enabled : Bool) :
    Option ResurrectionRequest × Option String :=
  if deploymentName.isEmpty then (none, some "Expected non-empty deployment name")
  else if job.isEmpty then (none, some "Expected non-empty job name")
  else if indexOrID.isEmpty then (none, some "Expected non-empty index or ID")
  else
    let req : ResurrectionRequest :=
      ⟨["deployments", deploymentName, "jobs", job, indexOrID, "resurrection"],
        [("resurrection_paused", !enabled)], "application/json"⟩
    match env.rawPut req with
    | some e =>
      (some req, some ("Changing VM resurrection state for instance in deployment: " ++ e))
    | none => (some req, none)

/-! ## Theorems -/

/-- The SHA1 component of `Client.FetchLogs` is the empty string on every path. -/
theorem fetchLogs_sha1_component (env : FetchLogsEnv)
    (deploymentName job indexOrID : String) (filters : List String)
    (agent : Bool) :
    (Client.FetchLogs env deploymentName job indexOrID filters agent).2.1 = "" := by
  unfold Client.FetchLogs
  dsimp only
  repeat' split
  all_goals rfl

/-- C9: for every successful call, `Client.FetchLogs` returns the empty string
as the SHA1 component (only the task result is propagated), so
`DeploymentImpl.FetchLogs` always returns a `LogsResult` whose SHA1 field is
the empty string. -/
theorem fetchLogs_returns_empty_sha1 (env : FetchLogsEnv)
    (deploymentName : String) (slug : InstanceSlug) (filters : List String)
    (agent : Bool) :
    ((Client.FetchLogs env deploymentName slug.name slug.indexOrID filters agent).2.2 = none →
      (Client.FetchLogs env deploymentName slug.name slug.indexOrID filters agent).2.1 = "") ∧
    (DeploymentImpl.FetchLogs env deploymentName slug filters agent).1.sha1 = "" := by
  constructor
  · intro _
    exact fetchLogs_sha1_component env deploymentName slug.name slug.indexOrID filters agent
  · unfold DeploymentImpl.FetchLogs
    split
    · rfl
    · rename_i blobID sha1 heq
      have h := fetchLogs_sha1_component env deploymentName slug.name slug.indexOrID filters agent
      rw [heq] at h
      simpa using h

/-- Witness for C9: a concrete environment where the logs fetch succeeds. -/
theorem fetchLogs_returns_empty_sha1_witness :
    (Client.FetchLogs ⟨fun _ _ => (7, "", none), fun _ => (⟨"logs"⟩, none)⟩
        "dep1" "job1" "0" [] false).2.2 = none ∧
    (Client.FetchLogs ⟨fun _ _ => (7, "", none), fun _ => (⟨"logs"⟩, none)⟩
        "dep1" "job1" "0" [] false).2.1 = "" :=
  ⟨rfl,
    (fetchLogs_returns_empty_sha1
      ⟨fun _ _ => (7, "", none), fun _ => (⟨"logs"⟩, none)⟩
      "dep1" ⟨"job1", "0"⟩ [] false).1 rfl⟩

/-- C8: `DeploymentImpl.Delete` returns nil despite a delete error exactly
when the subsequent listing succeeds and no longer contains the deployment's
name, and returns the original delete error exactly when the listing fails or
the deployment still appears. -/
theorem deploymentDelete_masks_error (env : DeleteEnv) (name : String)
    (force : Bool) (err : String)
    (h : env.deleteDeployment name force = some err) :
    (DeploymentImpl.Delete env name force = none ↔
      ∃ resps, env.deployments = .ok resps ∧ ∀ r ∈ resps, r.name ≠ name) ∧
    (DeploymentImpl.Delete env name force = some err ↔
      ((∃ e, env.deployments = .error e) ∨
        ∃ resps, env.deployments = .ok resps ∧ ∃ r ∈ resps, r.name = name)) := by
  unfold DeploymentImpl.Delete
  rw [h]
  cases hd : env.deployments with
  | error e => simp
  | ok resps =>
    by_cases hany : resps.any (fun r => r.name == name) = true
    · obtain ⟨r, hr, hrn⟩ := List.any_eq_true.mp hany
      have hrname : r.name = name := by simpa using hrn
      simp only [hany, if_true]
      constructor
      · constructor
        · intro h0; cases h0
        · rintro ⟨resps2, heq, hall⟩
          cases heq
          exact absurd hrname (hall r hr)
      · constructor
        · intro _; exact Or.inr ⟨resps, rfl, r, hr, hrname⟩
        · intro _; trivial
    · simp only [Bool.not_eq_true] at hany
      simp only [hany, Bool.false_eq_true, if_false]
      constructor
      · constructor
        · intro _
          refine ⟨resps, rfl, fun r hr hrn => ?_⟩
          have hc : (resps.any fun r => r.name == name) = true :=
            List.any_eq_true.mpr ⟨r, hr, by simp [hrn]⟩
          rw [hany] at hc; cases hc
        · intro _; trivial
      · constructor
        · intro h0; cases h0
        · rintro (⟨e, heq⟩ | ⟨resps2, heq, r, hr, hrn⟩)
          · cases heq
          · cases heq
            have hc : (resps.any fun r => r.name == name) = true :=
              List.any_eq_true.mpr ⟨r, hr, by simp [hrn]⟩
            rw [hany] at hc; cases hc

/-- Witness for C8: the delete call fails but the deployment is gone from the
listing, so the error is swallowed. -/
theorem deploymentDelete_masks_error_witness :
    (DeleteEnv.mk (fun _ _ => some "boom") (.ok [⟨"other"⟩])).deleteDeployment "dep1" false = some "boom" ∧
    (DeploymentImpl.Delete ⟨fun _ _ => some "boom", .ok [⟨"other"⟩]⟩ "dep1" false = none ↔
      ∃ resps, (DeleteEnv.mk (fun _ _ => some "boom") (.ok [⟨"other"⟩])).deployments = .ok resps ∧
        ∀ r ∈ resps, r.name ≠ "dep1") :=
  ⟨rfl,
    (deploymentDelete_masks_error ⟨fun _ _ => some "boom", .ok [⟨"other"⟩]⟩
      "dep1" false "boom" rfl).1⟩

/-- C10: `Client.EnableResurrection` sends `resurrection_paused := !enabled`
for non-empty arguments, and fails without issuing a request when any name
argument is empty. -/
theorem enableResurrection_negates_enabled (env : ResurrectionEnv)
    (deploymentName job indexOrID : String) (enabled : Bool) :
    (deploymentName ≠ "" → job ≠ "" → indexOrID ≠ "" →
      ∃ req, (Client.EnableResurrection env deploymentName job indexOrID enabled).1 = some req ∧
        req.body = [("resurrection_paused", !enabled)] ∧
        req.pathSegments = ["deployments", deploymentName, "jobs", job, indexOrID, "resurrection"]) ∧
    ((deploymentName = "" ∨ job = "" ∨ indexOrID = "") →
      (Client.EnableResurrection env deploymentName job indexOrID enabled).1 = none ∧
        ∃ e, (Client.EnableResurrection env deploymentName job indexOrID enabled).2 = some e) := by
  constructor
  · intro hd hj hi
    unfold Client.EnableResurrection
    rw [if_neg (by simpa [String.isEmpty_iff] using hd),
      if_neg (by simpa [String.isEmpty_iff] using hj),
      if_neg (by simpa [String.isEmpty_iff] using hi)]
    refine ⟨⟨["deployments", deploymentName, "jobs", job, indexOrID, "resurrection"],
      [("resurrection_paused", !enabled)], "application/json"⟩, ?_, rfl, rfl⟩
    dsimp only
    split <;> rfl
  · intro hempty
    unfold Client.EnableResurrection
    rcases hempty with hd | hj | hi
    · rw [if_pos (by simpa [String.isEmpty_iff] using hd)]
      exact ⟨rfl, _, rfl⟩
    · by_cases hd : deploymentName.isEmpty
      · rw [if_pos hd]; exact ⟨rfl, _, rfl⟩
      · rw [if_neg hd, if_pos (by simpa [String.isEmpty_iff] using hj)]
        exact ⟨rfl, _, rfl⟩
    · by_cases hd : deploymentName.isEmpty
      · rw [if_pos hd]; exact ⟨rfl, _, rfl⟩
      · rw [if_neg hd]
        by_cases hj : job.isEmpty
        · rw [if_pos hj]; exact ⟨rfl, _, rfl⟩
        · rw [if_neg hj, if_pos (by simpa [String.isEmpty_iff] using hi)]
          exact ⟨rfl, _, rfl⟩

/-- Witness for C10: with non-empty arguments the issued body pauses
resurrection exactly when `enabled` is false. -/
theorem enableResurrection_negates_enabled_witness :
    (("dep1" : String) ≠ "" ∧ ("job1" : String) ≠ "" ∧ ("0" : String) ≠ "") ∧
    ∃ req, (Client.EnableResurrection ⟨fun _ => none⟩ "dep1" "job1" "0" true).1 = some req ∧
      req.body = [("resurrection_paused", !true)] ∧
      req.pathSegments = ["deployments", "dep1", "jobs", "job1", "0", "resurrection"] :=
  ⟨⟨by decide, by decide, by decide⟩,
    (enableResurrection_negates_enabled ⟨fun _ => none⟩ "dep1" "job1" "0" true).1
      (by decide) (by decide) (by decide)⟩

/-- C6: the installer factory's blobstore is always the SHA1-verifying wrapper
around the local blobstore, so a fetch whose content digest does not match the
expected SHA1 fails with an integrity error instead of returning the bytes. -/
theorem factoryBlobstore_verifies_sha1 (t : Target)
    (store : String → Option String) (digestOf : String → String)
    (blobID expected content : String)
    (hfetch : store blobID = some content)
    (hmismatch : digestOf content ≠ expected) :
    contextBlobstoreShape t = .sha1Verified (.localStore t.blobstorePath) ∧
    BlobstoreShape.get store digestOf (contextBlobstoreShape t) blobID expected =
      .error ("Checksum mismatch for blob " ++ blobID) := by
  refine ⟨rfl, ?_⟩
  simp only [contextBlobstoreShape, BlobstoreShape.get, hfetch]
  rw [if_neg (by simpa using hmismatch)]

/-- Witness for C6: fetching a blob whose digest disagrees with the expected
checksum fails. -/
theorem factoryBlobstore_verifies_sha1_witness :
    ((fun _ : String => some "data") "blob1" = some "data" ∧
      (fun s : String => s) "data" ≠ "expected") ∧
    BlobstoreShape.get (fun _ => some "data") (fun s => s)
        (contextBlobstoreShape ⟨"bp", "ip", "pp"⟩) "blob1" "expected" =
      .error ("Checksum mismatch for blob " ++ "blob1") :=
  ⟨⟨rfl, by decide⟩,
    (factoryBlobstore_verifies_sha1 ⟨"bp", "ip", "pp"⟩ (fun _ => some "data")
      (fun s => s) "blob1" "expected" "data" rfl (by decide)).2⟩

/-- After a `getBlobstore` call the blobstore field holds the returned id. -/
theorem getBlobstore_pins (s : FactoryContext) :
    (getBlobstore s).2.blobstore = some (getBlobstore s).1 := by
  unfold getBlobstore
  cases h : s.blobstore <;> simp [allocate, h]

/-- After a `getCompiledPackageRepo` call the repo field holds the returned id. -/
theorem getCompiledPackageRepo_pins (s : FactoryContext) :
    (getCompiledPackageRepo s).2.compiledPackageRepo = some (getCompiledPackageRepo s).1 := by
  unfold getCompiledPackageRepo
  cases h : s.compiledPackageRepo <;> simp [allocate, newFileIndex, h]

/-- After a `getBlobExtractor` call the extractor field holds the returned id. -/
theorem getBlobExtractor_pins (s : FactoryContext) :
    (getBlobExtractor s).2.blobExtractor = some (getBlobExtractor s).1 := by
  unfold getBlobExtractor
  cases h : s.blobExtractor <;> simp [allocate, getBlobstore, h]

/-- After a `getInstallationStatePackageCompiler` call the compiler field
holds the returned id. -/
theorem getInstallationStatePackageCompiler_pins (s : FactoryContext) :
    (getInstallationStatePackageCompiler s).2.packageCompiler =
      some (getInstallationStatePackageCompiler s).1 := by
  unfold getInstallationStatePackageCompiler
  cases h : s.packageCompiler <;> simp [allocate, h]

/-- After a `getJobDependencyCompiler` call the dependency-compiler field
holds the returned id. -/
theorem getJobDependencyCompiler_pins (s : FactoryContext) :
    (getJobDependencyCompiler s).2.jobDependencyCompiler =
      some (getJobDependencyCompiler s).1 := by
  unfold getJobDependencyCompiler
  cases h : s.jobDependencyCompiler <;> simp [allocate, h]

/-- C7: every lazily-built factory sub-object is memoized — a repeated getter
call returns the identical instance and leaves the context unchanged — and
constructing an installer creates exactly one FileIndex, on the
compiled-package index path. -/
theorem installerFactory_memoizes (t : Target) (s : FactoryContext) :
    getBlobstore (getBlobstore s).2 = ((getBlobstore s).1, (getBlobstore s).2) ∧
    getCompiledPackageRepo (getCompiledPackageRepo s).2 =
      ((getCompiledPackageRepo s).1, (getCompiledPackageRepo s).2) ∧
    getBlobExtractor (getBlobExtractor s).2 =
      ((getBlobExtractor s).1, (getBlobExtractor s).2) ∧
    getInstallationStatePackageCompiler (getInstallationStatePackageCompiler s).2 =
      ((getInstallationStatePackageCompiler s).1, (getInstallationStatePackageCompiler s).2) ∧
    getJobDependencyCompiler (getJobDependencyCompiler s).2 =
      ((getJobDependencyCompiler s).1, (getJobDependencyCompiler s).2) ∧
    (newInstallerContext t).createdFileIndexPaths = [t.compiledPackagedIndexPath] := by
  refine ⟨?_, ?_, ?_, ?_, ?_, ?_⟩
  · conv_lhs => rw [getBlobstore, getBlobstore_pins s]
  · conv_lhs => rw [getCompiledPackageRepo, getCompiledPackageRepo_pins s]
  · conv_lhs => rw [getBlobExtractor, getBlobExtractor_pins s]
  · conv_lhs =>
      rw [getInstallationStatePackageCompiler, getInstallationStatePackageCompiler_pins s]
  · conv_lhs => rw [getJobDependencyCompiler, getJobDependencyCompiler_pins s]
  · rfl

/-- A successful sort is a permutation of the already-placed packages followed
by the remaining ones. -/
theorem topoSortAux_perm : ∀ (fuel : Nat) (remaining done order : List Package),
    topoSortAux fuel remaining done = .ok order → order.Perm (done ++ remaining) := by
  intro fuel
  induction fuel with
  | zero =>
    intro remaining done order h
    cases remaining with
    | nil =>
      simp only [topoSortAux, Except.ok.injEq] at h
      subst h; simp
    | cons p rest =>
      simp only [topoSortAux] at h
      exact Except.noConfusion h
  | succ fuel ih =>
    intro remaining done order h
    cases remaining with
    | nil =>
      simp only [topoSortAux, Except.ok.injEq] at h
      subst h; simp
    | cons p rest =>
      simp only [topoSortAux] at h
      cases hf : (p :: rest).find? (readyB done) with
      | none => rw [hf] at h; exact Except.noConfusion h
      | some q =>
        rw [hf] at h
        have hq : q ∈ p :: rest := List.mem_of_find?_eq_some hf
        have hperm := ih _ _ _ h
        have hassoc : (done ++ [q]) ++ (p :: rest).erase q =
            done ++ (q :: (p :: rest).erase q) := by
          rw [List.append_assoc]; rfl
        rw [hassoc] at hperm
        exact hperm.trans (List.Perm.append_left done (List.perm_cons_erase hq).symm)

/-- The sorter reports a cycle only with a non-empty list of package names. -/
theorem topoSortAux_error_ne_nil : ∀ (fuel : Nat) (remaining done : List Package)
    (names : List String), topoSortAux fuel remaining done = .error names →
    names ≠ [] := by
  intro fuel
  induction fuel with
  | zero =>
    intro remaining done names h
    cases remaining with
    | nil =>
      simp only [topoSortAux] at h
      exact Except.noConfusion h
    | cons p rest =>
      simp only [topoSortAux, Except.error.injEq] at h
      subst h; simp
  | succ fuel ih =>
    intro remaining done names h
    cases remaining with
    | nil =>
      simp only [topoSortAux] at h
      exact Except.noConfusion h
    | cons p rest =>
      simp only [topoSortAux] at h
      cases hf : (p :: rest).find? (readyB done) with
      | none =>
        rw [hf] at h
        injection h with h2
        subst h2; simp
      | some q =>
        rw [hf] at h
        exact ih _ _ _ h

/-- Appending a package whose dependencies are all present keeps the order
dependency-respecting. -/
theorem respectsDirect_concat (done : List Package) (p : Package)
    (hdone : RespectsDirect done)
    (hready : ∀ d ∈ p.deps, ∃ q ∈ done, q.name = d) :
    RespectsDirect (done ++ [p]) := by
  intro i hi d hd
  rw [List.length_append, List.length_singleton] at hi
  by_cases hlt : i < done.length
  · rw [List.getElem_append_left hlt] at hd
    obtain ⟨j, hji, hj, hjname⟩ := hdone i hlt d hd
    refine ⟨j, hji, by rw [List.length_append]; omega, ?_⟩
    rw [List.getElem_append_left hj]
    exact hjname
  · have hieq : i = done.length := by omega
    rw [List.getElem_concat_length done p i hieq] at hd
    obtain ⟨q, hq, hqname⟩ := hready d hd
    obtain ⟨j, hj, hjq⟩ := List.mem_iff_getElem.mp hq
    refine ⟨j, by omega, by rw [List.length_append]; omega, ?_⟩
    rw [List.getElem_append_left hj, hjq]
    exact hqname

/-- A successful sort starting from a dependency-respecting placed list yields
a dependency-respecting order. -/
theorem topoSortAux_respects : ∀ (fuel : Nat) (remaining done order : List Package),
    topoSortAux fuel remaining done = .ok order → RespectsDirect done →
    RespectsDirect order := by
  intro fuel
  induction fuel with
  | zero =>
    intro remaining done order h hdone
    cases remaining with
    | nil =>
      simp only [topoSortAux, Except.ok.injEq] at h
      subst h; exact hdone
    | cons p rest =>
      simp only [topoSortAux] at h
      exact Except.noConfusion h
  | succ fuel ih =>
    intro remaining done order h hdone
    cases remaining with
    | nil =>
      simp only [topoSortAux, Except.ok.injEq] at h
      subst h; exact hdone
    | cons p rest =>
      simp only [topoSortAux] at h
      cases hf : (p :: rest).find? (readyB done) with
      | none => rw [hf] at h; exact Except.noConfusion h
      | some q =>
        rw [hf] at h
        have hqready : readyB done q = true := List.find?_some hf
        have hready : ∀ d ∈ q.deps, ∃ q2 ∈ done, q2.name = d := by
          intro d hd
          have := List.all_eq_true.mp hqready d hd
          obtain ⟨q2, hq2, hq2n⟩ := List.any_eq_true.mp this
          exact ⟨q2, hq2, by simpa using hq2n⟩
        exact ih _ _ _ h (respectsDirect_concat done q hdone hready)

/-- With distinct package names, looking a member package up by its name finds
exactly that package. -/
theorem find_name_eq : ∀ (pkgs : List Package),
    (pkgs.map Package.name).Nodup →
    ∀ p ∈ pkgs, pkgs.find? (fun x => x.name == p.name) = some p := by
  intro pkgs
  induction pkgs with
  | nil => intro _ p hp; cases hp
  | cons r rest ih =>
    intro hnd p hp
    rw [List.map_cons, List.nodup_cons] at hnd
    rcases List.mem_cons.mp hp with rfl | hp2
    · exact List.find?_cons_of_pos rest (by simp)
    · have hne : ¬(r.name == p.name) = true := by
        simp only [beq_iff_eq]
        intro he
        exact hnd.1 (he ▸ List.mem_map_of_mem Package.name hp2)
      rw [List.find?_cons_of_neg rest hne]
      exact ih hnd.2 p hp2

/-- With distinct package names, packages of the set are determined by their
name. -/
theorem name_inj (pkgs : List Package) (hnd : (pkgs.map Package.name).Nodup)
    {p q : Package} (hp : p ∈ pkgs) (hq : q ∈ pkgs) (h : p.name = q.name) :
    p = q :=
  List.inj_on_of_nodup_map hnd hp hq h

/-- With distinct package names, the dependency names of a member package are
its declared dependencies. -/
theorem depNames_eq (pkgs : List Package) (hnd : (pkgs.map Package.name).Nodup)
    (p : Package) (hp : p ∈ pkgs) : depNames pkgs p.name = p.deps := by
  unfold depNames
  rw [find_name_eq pkgs hnd p hp]

/-- Bounded reachability implies transitive dependency. -/
theorem transDep_of_reachable (pkgs : List Package) : ∀ (fuel : Nat) (a b : String),
    reachableWithin pkgs fuel a b = true → TransDep pkgs a b := by
  intro fuel
  induction fuel with
  | zero =>
    intro a b h
    simp only [reachableWithin] at h
    exact absurd h Bool.false_ne_true
  | succ fuel ih =>
    intro a b h
    simp only [reachableWithin] at h
    obtain ⟨c, hc, hcb⟩ := List.any_eq_true.mp h
    have hdir : DirectDep pkgs a c := by
      unfold depNames at hc
      cases hf : pkgs.find? (fun p => p.name == a) with
      | none => rw [hf] at hc; cases hc
      | some p =>
        rw [hf] at hc
        refine ⟨p, List.mem_of_find?_eq_some hf, ?_, hc⟩
        simpa using List.find?_some hf
    rw [Bool.or_eq_true] at hcb
    rcases hcb with hceq | hrec
    · have : c = b := by simpa using hceq
      exact Relation.TransGen.single (this ▸ hdir)
    · exact Relation.TransGen.head hdir (ih c b hrec)

/-- A concrete dependency chain yields bounded reachability. -/
theorem reach_of_chain (pkgs : List Package)
    (hnd : (pkgs.map Package.name).Nodup)
    (f : Nat → Package) (hmem : ∀ n, f n ∈ pkgs)
    (hstep : ∀ n, (f (n + 1)).name ∈ (f n).deps) :
    ∀ (k fuel i : Nat), k < fuel →
      reachableWithin pkgs fuel (f i).name (f (i + k + 1)).name = true := by
  intro k
  induction k with
  | zero =>
    intro fuel i hk
    obtain ⟨m, rfl⟩ : ∃ m, fuel = m + 1 := ⟨fuel - 1, by omega⟩
    simp only [Nat.add_zero]
    simp only [reachableWithin]
    apply List.any_eq_true.mpr
    refine ⟨(f (i + 1)).name, ?_, by simp⟩
    rw [depNames_eq pkgs hnd (f i) (hmem i)]
    exact hstep i
  | succ k ih =>
    intro fuel i hk
    obtain ⟨m, rfl⟩ : ∃ m, fuel = m + 1 := ⟨fuel - 1, by omega⟩
    simp only [reachableWithin]
    apply List.any_eq_true.mpr
    refine ⟨(f (i + 1)).name, ?_, ?_⟩
    · rw [depNames_eq pkgs hnd (f i) (hmem i)]
      exact hstep i
    · rw [Bool.or_eq_true]
      right
      have h2 := ih m (i + 1) (by omega)
      have hidx : i + 1 + k + 1 = i + (k + 1) + 1 := by omega
      rw [hidx] at h2
      exact h2

/-- In an acyclic closed dependency graph, a non-empty remaining set always
contains a package whose dependencies are all already compiled. -/
theorem exists_ready (pkgs : List Package)
    (hnd : (pkgs.map Package.name).Nodup)
    (hclosed : ∀ p ∈ pkgs, ∀ d ∈ p.deps, ∃ q ∈ pkgs, q.name = d)
    (hacyc : Acyclic pkgs)
    (remaining done : List Package)
    (hsub : remaining.Sublist pkgs)
    (hcover : ∀ q ∈ pkgs, q.name ∈ done.map Package.name ∨ q ∈ remaining)
    (hne : remaining ≠ []) :
    ∃ p ∈ remaining, readyB done p = true := by
  by_contra hno
  push_neg at hno
  have hsucc : ∀ p, p ∈ remaining → ∃ q, q ∈ remaining ∧ q.name ∈ p.deps := by
    intro p hp
    have hnotready := hno p hp
    have hnall : ¬ ∀ d ∈ p.deps, done.any (fun q => q.name == d) = true := by
      intro hall
      exact hnotready (List.all_eq_true.mpr hall)
    push_neg at hnall
    obtain ⟨d, hd, hdany⟩ := hnall
    obtain ⟨q, hq, hqname⟩ := hclosed p (hsub.subset hp) d hd
    rcases hcover q hq with hdone | hrem
    · exfalso
      obtain ⟨q2, hq2, hq2name⟩ := List.mem_map.mp hdone
      exact hdany (List.any_eq_true.mpr ⟨q2, hq2, by simp [hq2name, hqname]⟩)
    · exact ⟨q, hrem, hqname ▸ hd⟩
  choose g hg1 hg2 using hsucc
  obtain ⟨p0, hp0⟩ : ∃ p, p ∈ remaining := by
    cases remaining with
    | nil => exact absurd rfl hne
    | cons a rest => exact ⟨a, List.mem_cons_self a rest⟩
  let F : Nat → {x : Package // x ∈ remaining} := fun n =>
    Nat.rec ⟨p0, hp0⟩ (fun _ s => ⟨g s.1 s.2, hg1 s.1 s.2⟩) n
  have hFstep : ∀ n, ((F (n + 1)).1).name ∈ ((F n).1).deps := fun n => hg2 _ _
  have hFmem : ∀ n, (F n).1 ∈ pkgs := fun n => hsub.subset (F n).2
  have key : ∀ (i j : Nat), i < j → j ≤ remaining.length →
      ((F i).1).name = ((F j).1).name → False := by
    intro i j hij hjle hname
    have hlensub := hsub.length_le
    have hk : j - i - 1 < pkgs.length := by omega
    have hr := reach_of_chain pkgs hnd (fun n => (F n).1) hFmem hFstep
      (j - i - 1) pkgs.length i hk
    have hidx : i + (j - i - 1) + 1 = j := by omega
    rw [hidx] at hr
    rw [← hname] at hr
    have hfalse := hacyc (F i).1 (hFmem i)
    rw [hfalse] at hr
    exact Bool.false_ne_true hr
  have hcard : (remaining.map Package.name).toFinset.card <
      (Finset.univ : Finset (Fin (remaining.length + 1))).card := by
    have h1 := List.toFinset_card_le (remaining.map Package.name)
    rw [List.length_map] at h1
    simpa using Nat.lt_succ_of_le h1
  have hmaps : ∀ a ∈ (Finset.univ : Finset (Fin (remaining.length + 1))),
      ((F a.1).1).name ∈ (remaining.map Package.name).toFinset := by
    intro a _
    rw [List.mem_toFinset]
    exact List.mem_map_of_mem Package.name (F a.1).2
  obtain ⟨x, _, y, _, hxy, hfeq⟩ :=
    Finset.exists_ne_map_eq_of_card_lt_of_maps_to hcard hmaps
  rcases Nat.lt_or_ge x.1 y.1 with hlt | hge
  · exact key x.1 y.1 hlt (Nat.lt_succ_iff.mp y.2) hfeq
  · have hlt2 : y.1 < x.1 := by
      rcases Nat.lt_or_ge y.1 x.1 with h2 | h2
      · exact h2
      · exact absurd (Fin.ext (by omega)) hxy
    exact key y.1 x.1 hlt2 (Nat.lt_succ_iff.mp x.2) hfeq.symm

/-- On an acyclic closed dependency graph the sorter succeeds. -/
theorem topoSortAux_ok (pkgs : List Package)
    (hnd : (pkgs.map Package.name).Nodup)
    (hclosed : ∀ p ∈ pkgs, ∀ d ∈ p.deps, ∃ q ∈ pkgs, q.name = d)
    (hacyc : Acyclic pkgs) :
    ∀ (fuel : Nat) (remaining done : List Package),
      remaining.length ≤ fuel → remaining.Sublist pkgs →
      (∀ q ∈ pkgs, q.name ∈ done.map Package.name ∨ q ∈ remaining) →
      ∃ order, topoSortAux fuel remaining done = .ok order := by
  intro fuel
  induction fuel with
  | zero =>
    intro remaining done hlen _ _
    have hnil : remaining = [] := List.eq_nil_of_length_eq_zero (by omega)
    subst hnil
    exact ⟨done, rfl⟩
  | succ fuel ih =>
    intro remaining done hlen hsub hcover
    cases remaining with
    | nil => exact ⟨done, rfl⟩
    | cons p rest =>
      obtain ⟨q, hq, hqready⟩ :=
        exists_ready pkgs hnd hclosed hacyc (p :: rest) done hsub hcover (by simp)
      have hfsome : ((p :: rest).find? (readyB done)).isSome = true :=
        List.find?_isSome.mpr ⟨q, hq, hqready⟩
      obtain ⟨q2, hf⟩ : ∃ q2, (p :: rest).find? (readyB done) = some q2 := by
        cases hf : (p :: rest).find? (readyB done) with
        | none => rw [hf] at hfsome; cases hfsome
        | some q2 => exact ⟨q2, rfl⟩
      have hq2mem : q2 ∈ p :: rest := List.mem_of_find?_eq_some hf
      have hlcons : (p :: rest).length = rest.length + 1 := List.length_cons p rest
      have hlen2 : ((p :: rest).erase q2).length ≤ fuel := by
        rw [List.length_erase_of_mem hq2mem]
        omega
      have hsub2 : ((p :: rest).erase q2).Sublist pkgs :=
        (List.erase_sublist q2 (p :: rest)).trans hsub
      have hcover2 : ∀ x ∈ pkgs,
          x.name ∈ (done ++ [q2]).map Package.name ∨ x ∈ (p :: rest).erase q2 := by
        intro x hx
        rcases hcover x hx with hdone | hrem2
        · left
          rw [List.map_append]
          exact List.mem_append_left _ hdone
        · by_cases hxq : x = q2
          · left
            rw [List.map_append]
            apply List.mem_append_right
            simp [hxq]
          · right
            exact (List.mem_erase_of_ne hxq).mpr hrem2
      obtain ⟨order, horder⟩ := ih ((p :: rest).erase q2) (done ++ [q2]) hlen2 hsub2 hcover2
      refine ⟨order, ?_⟩
      simp only [topoSortAux]
      rw [hf]
      exact horder

/-- A dependency-respecting permutation of the package set places every
transitive dependency strictly earlier. -/
theorem respects_trans (pkgs order : List Package)
    (hnd : (pkgs.map Package.name).Nodup)
    (hperm : order.Perm pkgs)
    (hdir : RespectsDirect order) :
    ∀ (a d : String), TransDep pkgs a d → ∀ (i : Nat) (hi : i < order.length),
      (order[i]).name = a →
      ∃ j, j < i ∧ ∃ (hj : j < order.length), (order[j]).name = d := by
  have hstep : ∀ (c d : String), DirectDep pkgs c d →
      ∀ (j : Nat) (hj : j < order.length), (order[j]).name = c →
      ∃ k, k < j ∧ ∃ (hk : k < order.length), (order[k]).name = d := by
    rintro c d ⟨p, hp, hpname, hd⟩ j hj hjname
    have hmem : order[j] ∈ pkgs := hperm.subset (List.getElem_mem hj)
    have heqp : order[j] = p := name_inj pkgs hnd hmem hp (by rw [hjname, hpname])
    exact hdir j hj d (by rw [heqp]; exact hd)
  intro a d h
  induction h with
  | single h1 =>
    intro i hi hname
    exact hstep _ _ h1 i hi hname
  | tail _ h2 ih =>
    intro i hi hname
    obtain ⟨j, hji, hj, hjname⟩ := ih i hi hname
    obtain ⟨k, hkj, hk, hkname⟩ := hstep _ _ h2 j hj hjname
    exact ⟨k, by omega, hk, hkname⟩

/-- C1: for every acyclic dependency graph over the required packages (with
distinct names, closed under dependencies), the Dependency Compiler's compile
order exists, covers exactly the required packages, and places every package
strictly after all of its transitive dependencies. -/
theorem dependencyCompiler_topological_order (pkgs : List Package)
    (hnd : (pkgs.map Package.name).Nodup)
    (hclosed : ∀ p ∈ pkgs, ∀ d ∈ p.deps, ∃ q ∈ pkgs, q.name = d)
    (hacyc : Acyclic pkgs) :
    ∃ order, topoSort pkgs = .ok order ∧ order.Perm pkgs ∧
      ∀ (i : Nat) (hi : i < order.length) (d : String),
        TransDep pkgs (order[i]).name d →
        ∃ j, j < i ∧ ∃ (hj : j < order.length), (order[j]).name = d := by
  obtain ⟨order, horder⟩ := topoSortAux_ok pkgs hnd hclosed hacyc
    pkgs.length pkgs [] (Nat.le_refl _) (List.Sublist.refl pkgs)
    (fun q hq => Or.inr hq)
  have hperm : order.Perm pkgs := by
    have := topoSortAux_perm pkgs.length pkgs [] order horder
    simpa using this
  have hdir : RespectsDirect order :=
    topoSortAux_respects pkgs.length pkgs [] order horder
      (fun i hi => absurd hi (by simp))
  exact ⟨order, horder, hperm,
    fun i hi d htd => respects_trans pkgs order hnd hperm hdir _ d htd i hi rfl⟩

/-- Witness for C1: a two-package acyclic graph (P2 depends on P1). -/
theorem dependencyCompiler_topological_order_witness :
    (((([⟨"P1", "f1", []⟩, ⟨"P2", "f2", ["P1"]⟩] : List Package).map Package.name).Nodup) ∧
      (∀ p ∈ ([⟨"P1", "f1", []⟩, ⟨"P2", "f2", ["P1"]⟩] : List Package),
        ∀ d ∈ p.deps, ∃ q ∈ ([⟨"P1", "f1", []⟩, ⟨"P2", "f2", ["P1"]⟩] : List Package),
          q.name = d) ∧
      Acyclic [⟨"P1", "f1", []⟩, ⟨"P2", "f2", ["P1"]⟩]) ∧
    ∃ order, topoSort [⟨"P1", "f1", []⟩, ⟨"P2", "f2", ["P1"]⟩] = .ok order ∧
      order.Perm [⟨"P1", "f1", []⟩, ⟨"P2", "f2", ["P1"]⟩] ∧
      ∀ (i : Nat) (hi : i < order.length) (d : String),
        TransDep [⟨"P1", "f1", []⟩, ⟨"P2", "f2", ["P1"]⟩] (order[i]).name d →
        ∃ j, j < i ∧ ∃ (hj : j < order.length), (order[j]).name = d :=
  ⟨⟨by decide, by decide, by decide⟩,
    dependencyCompiler_topological_order [⟨"P1", "f1", []⟩, ⟨"P2", "f2", ["P1"]⟩]
      (by decide) (by decide) (by decide)⟩

/-- C2: on a cyclic dependency graph the Dependency Compiler surfaces a
CycleError naming offending packages, with zero compile attempts and no cache
write. -/
theorem dependencyCompiler_cycle_error (env : CompileEnv) (cache : Cache)
    (pkgs : List Package)
    (hnd : (pkgs.map Package.name).Nodup)
    (hcyc : ∃ p ∈ pkgs, reachableWithin pkgs pkgs.length p.name p.name = true) :
    ∃ names, names ≠ [] ∧
      dependencyCompilerRun env pkgs cache =
        (.error (.cycle names), cache, ⟨[], []⟩) := by
  have hnotok : ∀ order, topoSort pkgs ≠ .ok order := by
    intro order hok
    have hperm : order.Perm pkgs := by
      have := topoSortAux_perm pkgs.length pkgs [] order hok
      simpa using this
    have hdir : RespectsDirect order :=
      topoSortAux_respects pkgs.length pkgs [] order hok
        (fun i hi => absurd hi (by simp))
    obtain ⟨p, hp, hreach⟩ := hcyc
    have htd : TransDep pkgs p.name p.name :=
      transDep_of_reachable pkgs pkgs.length p.name p.name hreach
    obtain ⟨i, hi, hieq⟩ := List.mem_iff_getElem.mp (hperm.mem_iff.mpr hp)
    obtain ⟨j, hji, hj, hjname⟩ :=
      respects_trans pkgs order hnd hperm hdir p.name p.name htd i hi
        (by rw [hieq])
    have hnd2 : (order.map Package.name).Nodup :=
      ((hperm.map Package.name).nodup_iff).mpr hnd
    have hij : j = i := by
      have hj2 : j < (order.map Package.name).length := by simpa using hj
      have hi2 : i < (order.map Package.name).length := by simpa using hi
      have hgl : (order.map Package.name)[j] = (order.map Package.name)[i] := by
        rw [List.getElem_map, List.getElem_map, hjname, hieq]
      exact (hnd2.getElem_inj_iff).mp hgl
    omega
  cases htopo : topoSort pkgs with
  | ok order => exact absurd htopo (hnotok order)
  | error names =>
    refine ⟨names, topoSortAux_error_ne_nil pkgs.length pkgs [] names htopo, ?_⟩
    simp only [dependencyCompilerRun, htopo]

/-- Witness for C2: the two-package cycle A → B → A. -/
theorem dependencyCompiler_cycle_error_witness :
    ((([⟨"A", "fa", ["B"]⟩, ⟨"B", "fb", ["A"]⟩] : List Package).map Package.name).Nodup ∧
      (∃ p ∈ ([⟨"A", "fa", ["B"]⟩, ⟨"B", "fb", ["A"]⟩] : List Package),
        reachableWithin [⟨"A", "fa", ["B"]⟩, ⟨"B", "fb", ["A"]⟩] 2 p.name p.name = true)) ∧
    ∃ names, names ≠ [] ∧
      dependencyCompilerRun ⟨fun _ => none⟩ [⟨"A", "fa", ["B"]⟩, ⟨"B", "fb", ["A"]⟩] [] =
        (.error (.cycle names), [], ⟨[], []⟩) :=
  ⟨⟨by decide, by decide⟩,
    dependencyCompiler_cycle_error ⟨fun _ => none⟩ []
      [⟨"A", "fa", ["B"]⟩, ⟨"B", "fb", ["A"]⟩] (by decide) (by decide)⟩

/-- A cache hit returns the cached record at no cost. -/
theorem compilePkg_hit (env : CompileEnv) (cache : Cache) (pkg : Package)
    (depRecords : List CompiledPackageRecord) (r : CompiledPackageRecord)
    (h : cacheLookup (pkg.fingerprint, dependencyKey depRecords) cache = some r) :
    compilePkg env cache pkg depRecords = (.ok r, cache, ⟨[], []⟩) := by
  unfold compilePkg
  dsimp only
  rw [h]

/-- The three possible outcomes of a single package compile: cache hit (no
side effects), miss-and-compile (one new cache entry, one procedure run), or
miss-and-fail (a CompileError, no cache write, one procedure run). -/
theorem compilePkg_spec (env : CompileEnv) (cache : Cache) (pkg : Package)
    (depRecords : List CompiledPackageRecord) :
    (∃ r, compilePkg env cache pkg depRecords = (.ok r, cache, ⟨[], []⟩)) ∨
    (∃ r, compilePkg env cache pkg depRecords =
        (.ok r, ((pkg.fingerprint, dependencyKey depRecords), r) :: cache,
          ⟨[pkg.fingerprint], pkg.name :: depRecords.map (fun x => x.blobID)⟩)) ∨
    compilePkg env cache pkg depRecords =
      (.error (.compileFailed pkg.name), cache,
        ⟨[pkg.fingerprint], pkg.name :: depRecords.map (fun x => x.blobID)⟩) := by
  unfold compilePkg
  dsimp only
  cases hl : cacheLookup (pkg.fingerprint, dependencyKey depRecords) cache with
  | some r => exact Or.inl ⟨r, rfl⟩
  | none =>
    cases hp : env.procOutcome pkg.fingerprint with
    | some out => exact Or.inr (Or.inl ⟨⟨out.1, out.2, dependencyKey depRecords⟩, rfl⟩)
    | none => exact Or.inr (Or.inr rfl)

/-- A single compile runs the packaging procedure either not at all (cache
hit) or exactly once, on the package's own fingerprint. -/
theorem compilePkg_procRuns (env : CompileEnv) (cache : Cache) (pkg : Package)
    (depRecords : List CompiledPackageRecord) :
    (compilePkg env cache pkg depRecords).2.2.procRuns = [] ∨
    (compilePkg env cache pkg depRecords).2.2.procRuns = [pkg.fingerprint] := by
  rcases compilePkg_spec env cache pkg depRecords with ⟨r, hc⟩ | ⟨r, hc⟩ | hc <;>
    rw [hc]
  · exact Or.inl rfl
  · exact Or.inr rfl
  · exact Or.inr rfl

/-- Appending an empty run log changes nothing. -/
theorem RunLog.append_empty (log : RunLog) : log.append ⟨[], []⟩ = log := by
  cases log
  simp [RunLog.append]

/-- C4: compiling the same package with the same dependency set again on the
cache produced by a successful compile is a cache hit — it returns the first
run's record unchanged, with no cache write, no extraction and no procedure
execution. -/
theorem packageCompiler_cache_idempotent (env : CompileEnv) (cache cache1 : Cache)
    (pkg : Package) (depRecords : List CompiledPackageRecord)
    (r1 : CompiledPackageRecord) (log1 : RunLog)
    (h : compilePkg env cache pkg depRecords = (.ok r1, cache1, log1)) :
    compilePkg env cache1 pkg depRecords = (.ok r1, cache1, ⟨[], []⟩) := by
  rcases compilePkg_spec env cache pkg depRecords with ⟨r, hc⟩ | ⟨r, hc⟩ | hc
  · rw [hc] at h
    simp only [Prod.mk.injEq, Except.ok.injEq] at h
    obtain ⟨h1, h2, _⟩ := h
    subst h1
    subst h2
    exact hc
  · rw [hc] at h
    simp only [Prod.mk.injEq, Except.ok.injEq] at h
    obtain ⟨h1, h2, _⟩ := h
    subst h1
    subst h2
    apply compilePkg_hit
    simp [cacheLookup]
  · rw [hc] at h
    simp only [Prod.mk.injEq] at h
    exact absurd h.1 (by simp)

/-- Witness for C4: a concrete first compile followed by the cached rerun. -/
theorem packageCompiler_cache_idempotent_witness :
    compilePkg ⟨fun _ => some ("b", "s")⟩ [] ⟨"P1", "f1", []⟩ [] =
      (.ok ⟨"b", "s", ""⟩, [(("f1", ""), ⟨"b", "s", ""⟩)], ⟨["f1"], ["P1"]⟩) ∧
    compilePkg ⟨fun _ => some ("b", "s")⟩ [(("f1", ""), ⟨"b", "s", ""⟩)]
        ⟨"P1", "f1", []⟩ [] =
      (.ok ⟨"b", "s", ""⟩, [(("f1", ""), ⟨"b", "s", ""⟩)], ⟨[], []⟩) :=
  ⟨rfl,
    packageCompiler_cache_idempotent ⟨fun _ => some ("b", "s")⟩ []
      [(("f1", ""), ⟨"b", "s", ""⟩)] ⟨"P1", "f1", []⟩ [] ⟨"b", "s", ""⟩
      ⟨["f1"], ["P1"]⟩ rfl⟩

/-- A run appends to the incoming log a procedure-run list that is a sublist
of the compile order's fingerprints (each order position contributes at most
one run, of its own fingerprint). -/
theorem compileInOrder_log (env : CompileEnv) :
    ∀ (order : List Package) (cache : Cache)
      (results : List (String × CompiledPackageRecord)) (log : RunLog),
    ∃ procAdd extAdd,
      (compileInOrder env order cache results log).2.2 =
        ⟨log.procRuns ++ procAdd, log.extractions ++ extAdd⟩ ∧
      procAdd.Sublist (order.map Package.fingerprint) := by
  intro order
  induction order with
  | nil =>
    intro cache results log
    refine ⟨[], [], ?_, List.nil_sublist _⟩
    cases log
    simp [compileInOrder]
  | cons p rest ih =>
    intro cache results log
    have hstep : compileInOrder env (p :: rest) cache results log =
        match compilePkg env cache p (p.deps.filterMap (fun d => resultsLookup d results)) with
        | (.ok r, cache1, l) =>
          compileInOrder env rest cache1 (results ++ [(p.name, r)]) (log.append l)
        | (.error e, cache1, l) => (.error e, cache1, log.append l) := rfl
    have hpr := compilePkg_procRuns env cache p
      (p.deps.filterMap (fun d => resultsLookup d results))
    rcases hc : compilePkg env cache p
        (p.deps.filterMap (fun d => resultsLookup d results)) with ⟨res, cache1, l⟩
    rw [hc] at hpr
    rw [hstep, hc]
    cases res with
    | ok r =>
      dsimp only
      obtain ⟨pa, ea, heq, hsub⟩ := ih cache1 (results ++ [(p.name, r)]) (log.append l)
      refine ⟨l.procRuns ++ pa, l.extractions ++ ea, ?_, ?_⟩
      · rw [heq]
        simp [RunLog.append, List.append_assoc]
      · rcases hpr with hl | hl <;> rw [hl]
        · simpa using hsub.cons p.fingerprint
        · simpa using List.Sublist.cons₂ p.fingerprint hsub
    | error e =>
      dsimp only
      refine ⟨l.procRuns, l.extractions, rfl, ?_⟩
      rcases hpr with hl | hl <;> rw [hl]
      · exact List.nil_sublist _
      · simp

/-- Folding a property-preserving step preserves the property. -/
theorem foldl_preserved {α β : Type} (f : β → α → β) (P : β → Prop)
    (hf : ∀ b a, P b → P (f b a)) : ∀ (l : List α) (b : β), P b → P (l.foldl f b) := by
  intro l
  induction l with
  | nil => intro b hb; exact hb
  | cons a rest ih => intro b hb; exact ih (f b a) (hf b a hb)

/-- Iterating a property-preserving function preserves the property. -/
theorem applyN_preserved {α : Type} (f : α → α) (P : α → Prop)
    (hf : ∀ a, P a → P (f a)) : ∀ (n : Nat) (a : α), P a → P (applyN f n a) := by
  intro n
  induction n with
  | zero => intro a ha; exact ha
  | succ n ih => intro a ha; exact ih (f a) (hf a ha)

/-- The seen-set insertion keeps collected fingerprints distinct. -/
theorem addUnique_nodup (acc : List Package) (p : Package)
    (h : (acc.map Package.fingerprint).Nodup) :
    ((addUnique acc p).map Package.fingerprint).Nodup := by
  unfold addUnique
  split
  · exact h
  · rename_i hany
    rw [List.map_append]
    refine List.Nodup.append h (by simp) ?_
    intro a ha hb
    simp only [List.map_cons, List.map_nil, List.mem_singleton] at hb
    subst hb
    apply hany
    apply List.any_eq_true.mpr
    obtain ⟨q, hq, hqf⟩ := List.mem_map.mp ha
    exact ⟨q, hq, by simp [hqf]⟩

/-- One closure round keeps collected fingerprints distinct. -/
theorem closeStep_nodup (pkgs : List Package) (acc : List Package)
    (h : (acc.map Package.fingerprint).Nodup) :
    ((closeStep pkgs acc).map Package.fingerprint).Nodup := by
  unfold closeStep
  exact foldl_preserved _ (fun l => (l.map Package.fingerprint).Nodup)
    (fun b a hb =>
      foldl_preserved addUnique (fun l => (l.map Package.fingerprint).Nodup)
        (fun b2 a2 hb2 => addUnique_nodup b2 a2 hb2) _ b hb)
    acc acc h

/-- The required package set never contains two packages with the same
fingerprint (the seen-set deduplication). -/
theorem requiredPackages_nodup (pkgs : List Package) (jobs : List Job) :
    ((requiredPackages pkgs jobs).map Package.fingerprint).Nodup := by
  unfold requiredPackages
  apply applyN_preserved (closeStep pkgs)
    (fun l => (l.map Package.fingerprint).Nodup)
    (fun a ha => closeStep_nodup pkgs a ha)
  exact foldl_preserved addUnique (fun l => (l.map Package.fingerprint).Nodup)
    (fun b a hb => addUnique_nodup b a hb) _ [] (by simp)

/-- C3: within a single Dependency Compiler run over a set of Jobs, no
package fingerprint has its packaging procedure invoked more than once, even
when several Jobs require the same package. -/
theorem dependencyCompiler_at_most_once (env : CompileEnv) (cache : Cache)
    (pkgs : List Package) (jobs : List Job) (f : String) :
    ((dependencyCompilerRunForJobs env pkgs jobs cache).2.2.procRuns.count f) ≤ 1 := by
  unfold dependencyCompilerRunForJobs dependencyCompilerRun
  cases htopo : topoSort (requiredPackages pkgs jobs) with
  | error names => simp
  | ok order =>
    dsimp only
    obtain ⟨pa, ea, heq, hsub⟩ := compileInOrder_log env order cache [] ⟨[], []⟩
    rw [heq]
    dsimp only
    rw [List.nil_append]
    have hperm : order.Perm (requiredPackages pkgs jobs) := by
      have h2 := topoSortAux_perm _ _ _ _ htopo
      simpa using h2
    have hnodup : pa.Nodup :=
      List.Nodup.sublist hsub
        ((hperm.map Package.fingerprint).nodup_iff.mpr
          (requiredPackages_nodup pkgs jobs))
    exact List.nodup_iff_count_le_one.mp hnodup f

/-- When a run fails, the failure names a package of the order, nothing after
that package was attempted, and the cache gained entries only for packages
strictly before it, on top of the unchanged prior entries. -/
theorem compileInOrder_fail (env : CompileEnv) :
    ∀ (order : List Package) (cache : Cache)
      (results : List (String × CompiledPackageRecord)) (log : RunLog)
      (nm : String) (cache2 : Cache) (log2 : RunLog),
    compileInOrder env order cache results log =
      (.error (.compileFailed nm), cache2, log2) →
    ∃ pre p post new procAdd extAdd,
      order = pre ++ p :: post ∧ p.name = nm ∧
      cache2 = new ++ cache ∧
      (∀ e ∈ new, e.1.1 ∈ pre.map Package.fingerprint) ∧
      log2 = ⟨log.procRuns ++ procAdd, log.extractions ++ extAdd⟩ ∧
      procAdd.Sublist ((pre ++ [p]).map Package.fingerprint) := by
  intro order
  induction order with
  | nil =>
    intro cache results log nm cache2 log2 h
    simp only [compileInOrder, Prod.mk.injEq] at h
    exact absurd h.1 (by simp)
  | cons p rest ih =>
    intro cache results log nm cache2 log2 h
    have hstep : compileInOrder env (p :: rest) cache results log =
        match compilePkg env cache p (p.deps.filterMap (fun d => resultsLookup d results)) with
        | (.ok r, cache1, l) =>
          compileInOrder env rest cache1 (results ++ [(p.name, r)]) (log.append l)
        | (.error e, cache1, l) => (.error e, cache1, log.append l) := rfl
    rw [hstep] at h
    rcases compilePkg_spec env cache p
        (p.deps.filterMap (fun d => resultsLookup d results))
      with ⟨r, hc⟩ | ⟨r, hc⟩ | hc <;> rw [hc] at h <;> dsimp only at h
    · rw [RunLog.append_empty] at h
      obtain ⟨pre, p2, post, new, pa, ea, hord, hname, hcache, hnew, hlog, hsub⟩ :=
        ih _ _ _ _ _ _ h
      refine ⟨p :: pre, p2, post, new, pa, ea, by rw [hord]; rfl, hname, hcache, ?_, hlog, ?_⟩
      · intro e he
        exact List.mem_cons_of_mem _ (hnew e he)
      · have hmap : ((p :: pre) ++ [p2]).map Package.fingerprint =
            p.fingerprint :: (pre ++ [p2]).map Package.fingerprint := by simp
        rw [hmap]
        exact hsub.cons _
    · obtain ⟨pre, p2, post, new, pa, ea, hord, hname, hcache, hnew, hlog, hsub⟩ :=
        ih _ _ _ _ _ _ h
      refine ⟨p :: pre, p2, post,
        new ++ [((p.fingerprint,
          dependencyKey (p.deps.filterMap (fun d => resultsLookup d results))), r)],
        p.fingerprint :: pa,
        (p.name :: (p.deps.filterMap (fun d => resultsLookup d results)).map
          (fun x => x.blobID)) ++ ea,
        by rw [hord]; rfl, hname, ?_, ?_, ?_, ?_⟩
      · rw [hcache, List.append_cons]
      · intro e he
        rcases List.mem_append.mp he with he2 | he2
        · exact List.mem_cons_of_mem _ (hnew e he2)
        · rw [List.mem_singleton] at he2
          subst he2
          simp
      · rw [hlog]
        simp [RunLog.append, List.append_assoc]
      · have hmap : ((p :: pre) ++ [p2]).map Package.fingerprint =
            p.fingerprint :: (pre ++ [p2]).map Package.fingerprint := by simp
        rw [hmap]
        exact List.Sublist.cons₂ p.fingerprint hsub
    · simp only [Prod.mk.injEq, Except.error.injEq,
        CompilerError.compileFailed.injEq] at h
      obtain ⟨h1, h2, h3⟩ := h
      refine ⟨[], p, rest, [], [p.fingerprint],
        p.name :: (p.deps.filterMap (fun d => resultsLookup d results)).map
          (fun x => x.blobID),
        rfl, h1, by rw [← h2]; rfl, ?_, by rw [← h3]; rfl, by simp⟩
      intro e he
      cases he

/-- C5: a failing package compile aborts the run immediately — the error
names a package of the order, no package after it has its procedure run, no
cache entry is written under the failed package's fingerprint, and all prior
cache entries survive unchanged (new entries, all for strictly earlier
packages, are merely prepended). -/
theorem dependencyCompiler_fail_fast (env : CompileEnv) (cache : Cache)
    (pkgs : List Package) (nm : String) (cache2 : Cache) (log2 : RunLog)
    (hfp : (pkgs.map Package.fingerprint).Nodup)
    (h : dependencyCompilerRun env pkgs cache =
      (.error (.compileFailed nm), cache2, log2)) :
    ∃ order pre p post new,
      topoSort pkgs = .ok order ∧ order = pre ++ p :: post ∧ p.name = nm ∧
      cache2 = new ++ cache ∧
      (∀ e ∈ new, e.1.1 ≠ p.fingerprint) ∧
      (∀ q ∈ post, q.fingerprint ∉ log2.procRuns) ∧
      log2.procRuns.Sublist ((pre ++ [p]).map Package.fingerprint) := by
  unfold dependencyCompilerRun at h
  cases htopo : topoSort pkgs with
  | error names =>
    rw [htopo] at h
    simp only [Prod.mk.injEq] at h
    exact absurd h.1 (by simp)
  | ok order =>
    rw [htopo] at h
    obtain ⟨pre, p, post, new, pa, ea, hord, hname, hcache, hnew, hlog, hsub⟩ :=
      compileInOrder_fail env order cache [] ⟨[], []⟩ nm cache2 log2 h
    have hpr : log2.procRuns = pa := by rw [hlog]; simp
    have hordnodup : (order.map Package.fingerprint).Nodup := by
      have hperm := topoSortAux_perm _ _ _ _ htopo
      exact ((List.Perm.map Package.fingerprint (by simpa using hperm)).nodup_iff).mpr hfp
    rw [hord, List.map_append, List.map_cons] at hordnodup
    have hdisj0 := List.disjoint_of_nodup_append hordnodup
    have hordnodup2 : ((pre.map Package.fingerprint ++ [p.fingerprint]) ++
        post.map Package.fingerprint).Nodup := by
      rw [List.append_assoc]
      simpa using hordnodup
    have hdisj := List.disjoint_of_nodup_append hordnodup2
    have hpfp : p.fingerprint ∉ pre.map Package.fingerprint := by
      intro hmem
      exact hdisj0 hmem (List.mem_cons_self _ _)
    refine ⟨order, pre, p, post, new, rfl, hord, hname, hcache, ?_, ?_, ?_⟩
    · intro e he heq
      exact hpfp (heq ▸ hnew e he)
    · intro q hq hqin
      rw [hpr] at hqin
      have h1 : q.fingerprint ∈ (pre ++ [p]).map Package.fingerprint :=
        hsub.subset hqin
      rw [List.map_append] at h1
      exact hdisj h1 (List.mem_map_of_mem Package.fingerprint hq)
    · rw [hpr]
      exact hsub

/-- Witness for C5: P1 compiles, P2 (depending on P1) fails, the run aborts
with P1's cache entry written and P2 uncached. -/
theorem dependencyCompiler_fail_fast_witness :
    ((([⟨"P1", "f1", []⟩, ⟨"P2", "f2", ["P1"]⟩] : List Package).map
        Package.fingerprint).Nodup ∧
      dependencyCompilerRun
        ⟨fun fp => if fp = "f1" then some ("b1", "s1") else none⟩
        [⟨"P1", "f1", []⟩, ⟨"P2", "f2", ["P1"]⟩] [] =
        (.error (.compileFailed "P2"), [(("f1", ""), ⟨"b1", "s1", ""⟩)],
          ⟨["f1", "f2"], ["P1", "P2", "b1"]⟩)) ∧
    ∃ (order pre : List Package) (p : Package) (post : List Package) (new : Cache),
      topoSort [⟨"P1", "f1", []⟩, ⟨"P2", "f2", ["P1"]⟩] = .ok order ∧
      order = pre ++ p :: post ∧ p.name = "P2" ∧
      [(("f1", ""), ⟨"b1", "s1", ""⟩)] = new ++ [] ∧
      (∀ e ∈ new, e.1.1 ≠ p.fingerprint) ∧
      (∀ q ∈ post, q.fingerprint ∉
        (RunLog.mk ["f1", "f2"] ["P1", "P2", "b1"]).procRuns) ∧
      (RunLog.mk ["f1", "f2"] ["P1", "P2", "b1"]).procRuns.Sublist
        ((pre ++ [p]).map Package.fingerprint) :=
  ⟨⟨by decide, by rfl⟩,
    dependencyCompiler_fail_fast
      ⟨fun fp => if fp = "f1" then some ("b1", "s1") else none⟩ []
      [⟨"P1", "f1", []⟩, ⟨"P2", "f2", ["P1"]⟩] "P2"
      [(("f1", ""), ⟨"b1", "s1", ""⟩)] ⟨["f1", "f2"], ["P1", "P2", "b1"]⟩
      (by decide) (by rfl)⟩

end BoshInit
